import Mathlib

set_option maxRecDepth 100000

/-!
# Verification of `rustix::path::DecInt` (src/path/dec_int.rs)

Shallow embedding of the decimal-integer path-component formatter.

Modelling choices:
* Machine integers are `Int` values together with an `IntTy` describing the
  Rust type (`i8`/`u8`/…/`i128`/`u128`/`isize`/`usize`).  A 64-bit target is
  assumed, so `usize::BITS = 64`.
* The external `itoa` crate's `Buffer::format` produces the canonical decimal
  ASCII representation of the integer; it is modelled by `intDecBytes`
  (bytes as `Nat` codes: `45 = '-'`, `48..57 = '0'..'9'`).
* `MaybeUninit<u8>` is modelled as `Option Nat` (`none` = uninitialized).
* `DecInt::new` is modelled as `DecInt.new : IntTy → Int → Option DecInt`;
  `none` corresponds to the `assert!(str_buf.len() < buf.len())` panic (and
  to the `unreachable_unchecked` hint, which is never reached for in-range
  inputs — proved below).
-/

namespace Rustix

/-- The Rust integer types accepted by `DecInt::new` via the
`itoa::Integer + 'static` bound, matching the `TypeId` dispatch in the
source. -/
inductive IntTy where
  | i8 | i16 | i32 | i64 | i128 | isize
  | u8 | u16 | u32 | u64 | u128 | usize
deriving DecidableEq

/-- `usize::BITS` / `isize::BITS`: a 64-bit target is assumed. -/
def POINTER_BITS : Nat := 64

/-- Bit width of each integer type (the `u8::BITS` … `usize::BITS` values in
the `TypeId` match of `DecInt::new`). -/
def IntTy.bits : IntTy → Nat
  | .i8 | .u8 => 8
  | .i16 | .u16 => 16
  | .i32 | .u32 => 32
  | .i64 | .u64 => 64
  | .i128 | .u128 => 128
  | .isize | .usize => POINTER_BITS

/-- Whether the type is signed. -/
def IntTy.signed : IntTy → Bool
  | .i8 | .i16 | .i32 | .i64 | .i128 | .isize => true
  | .u8 | .u16 | .u32 | .u64 | .u128 | .usize => false

/-- Minimum representable value of the type. -/
def IntTy.minVal (t : IntTy) : Int :=
  if t.signed then -(2 ^ (t.bits - 1)) else 0

/-- Maximum representable value of the type. -/
def IntTy.maxVal (t : IntTy) : Int :=
  if t.signed then 2 ^ (t.bits - 1) - 1 else 2 ^ t.bits - 1

/-- `i` is a value of type `t`. -/
def IntTy.inRange (t : IntTy) (i : Int) : Prop :=
  t.minVal ≤ i ∧ i ≤ t.maxVal

instance (t : IntTy) (i : Int) : Decidable (t.inRange i) := by
  unfold IntTy.inRange; infer_instance

/-- Big-endian decimal digit bytes of a natural number, accumulator style,
with fuel (`fuel ≥ n` suffices).  Models the digit loop of the external
`itoa` formatting routine. -/
def natDecAux : Nat → Nat → List Nat → List Nat
  | 0, _, acc => acc
  | fuel + 1, n, acc =>
    if n = 0 then acc else natDecAux fuel (n / 10) ((48 + n % 10) :: acc)

/-- Canonical decimal ASCII bytes of a natural number (`"0"` for zero, no
leading zeros otherwise). -/
def natDecBytes (n : Nat) : List Nat :=
  if n = 0 then [48] else natDecAux n n []

/-- Canonical decimal ASCII bytes of an integer: a single leading `'-'`
(byte 45) for negative values, no `'+'`, no leading zeros.  This is the
output contract of `itoa::Buffer::format`, the external routine `DecInt::new`
delegates to. -/
def intDecBytes (i : Int) : List Nat :=
  if i < 0 then 45 :: natDecBytes i.natAbs else natDecBytes i.natAbs

/-- Buffer capacity: `"-9223372036854775808\0".len()` = 21. -/
def BUF_CAP : Nat := 21

/-- The per-width bound `max_buf_size` computed in `DecInt::new`:
`"-128".len()`, `"-32768".len()`, `"-2147483648".len()`,
`"-9223372036854775808".len()`,
`"-170141183460469231731687303715884105728".len()` respectively.  The
`unreachable!()` default arm is modelled as 0 (never reached: `bits` is
always one of the five listed widths). -/
def maxBufSize (t : IntTy) : Nat :=
  match t.bits with
  | 8 => 4
  | 16 => 6
  | 32 => 11
  | 64 => 20
  | 128 => 40
  | _ => 0

/-- The `DecInt` struct: a 21-byte buffer of possibly-uninitialized bytes
plus the length of the formatted text. -/
structure DecInt where
  buf : List (Option Nat)
  len : Nat
deriving DecidableEq

/-- `DecInt::new`.  Formats `i` via itoa (`intDecBytes`), then:
* `if str_buf.len() > max_buf_size { unreachable_unchecked() }` — modelled
  as `none` (no defined result);
* `assert!(str_buf.len() < buf.len())` — the panic is modelled as `none`;
* otherwise copies the bytes to the front of the buffer, writes a 0
  terminator right after, and leaves the tail uninitialized. -/
def DecInt.new (t : IntTy) (i : Int) : Option DecInt :=
  let s := intDecBytes i
  if s.length > maxBufSize t then
    none
  else if s.length < BUF_CAP then
    some { buf := s.map some ++ some 0 :: List.replicate (BUF_CAP - s.length - 1) none
           len := s.length }
  else
    none

/-- A borrowed file descriptor; `as_raw_fd` yields a `RawFd = c_int`, i.e.
an `i32` value. -/
structure Fd where
  raw : Int

/-- `DecInt::from_fd`: `Self::new(fd.as_fd().as_raw_fd())`. -/
def DecInt.from_fd (fd : Fd) : Option DecInt :=
  DecInt.new .i32 fd.raw

/-- `DecInt::as_bytes_with_nul`: the initialized prefix `buf[..=len]`,
reinterpreted as initialized bytes (reading an uninitialized byte is
modelled as 0; the construction invariant proves all of them are
initialized). -/
def DecInt.as_bytes_with_nul (d : DecInt) : List Nat :=
  (d.buf.take (d.len + 1)).map (fun b => b.getD 0)

/-- `DecInt::as_bytes`: `&bytes[..bytes.len() - 1]`, the NUL-terminated view
with the final byte dropped. -/
def DecInt.as_bytes (d : DecInt) : List Nat :=
  d.as_bytes_with_nul.dropLast

/-- `DecInt::as_str`: the same bytes as `as_bytes`, reinterpreted as UTF-8
text (`str::from_utf8_unchecked` — a byte-level no-op). -/
def DecInt.as_str (d : DecInt) : List Nat :=
  d.as_bytes

/-- `DecInt::as_c_str`: the NUL-terminated bytes, reinterpreted as a `CStr`
(`CStr::from_bytes_with_nul_unchecked` — a byte-level no-op). -/
def DecInt.as_c_str (d : DecInt) : List Nat :=
  d.as_bytes_with_nul

/-- `<DecInt as AsRef<Path>>::as_ref`: the path view is the terminator-free
byte view reinterpreted as an `OsStr`/`Path` (zero-copy on unix). -/
def DecInt.as_path (d : DecInt) : List Nat :=
  d.as_bytes

/-- Digit-accumulation loop of integer parsing: consumes ASCII digit bytes,
failing on any non-digit.  (Overflow checking is performed on the final
value in `parseDec`; since digits only grow the value, this is equivalent
to the step-wise checked arithmetic of the standard library.) -/
def parseDigitsAcc : List Nat → Nat → Option Nat
  | [], acc => some acc
  | c :: cs, acc =>
    if 48 ≤ c ∧ c ≤ 57 then parseDigitsAcc cs (acc * 10 + (c - 48)) else none

/-- Parse a nonempty run of digit bytes (empty input is an error). -/
def parseNonempty : List Nat → Option Nat
  | [] => none
  | ds => parseDigitsAcc ds 0

/-- Modelled from the spec: the standard-library integer parsing
(`str::parse::<T>` / `from_str_radix(.., 10)`) referenced by the round-trip
property — external to this crate.  An optional leading `'+'` is accepted;
a leading `'-'` only for signed types; then a nonempty digit run; the value
must be in range for the target type. -/
def parseDec (t : IntTy) (s : List Nat) : Option Int :=
  match s with
  | [] => none
  | c :: rest =>
    if c = 43 then
      (parseNonempty rest).bind fun n =>
        if t.inRange (n : Int) then some ((n : Int)) else none
    else if c = 45 then
      if t.signed then
        (parseNonempty rest).bind fun n =>
          if t.inRange (-(n : Int)) then some (-(n : Int)) else none
      else none
    else
      (parseNonempty s).bind fun n =>
        if t.inRange (n : Int) then some ((n : Int)) else none

/-- Concrete handle extractor (for evaluating claims on concrete inputs):
the handle constructed from `i`, defaulting to a dummy when construction
fails. -/
def mkD (t : IntTy) (i : Int) : DecInt :=
  (DecInt.new t i).getD { buf := [], len := 0 }

/-! ## Characterization of the formatting routine via `Nat.digits` -/

theorem natDecAux_eq (fuel : Nat) :
    ∀ n acc, n ≤ fuel →
      natDecAux fuel n acc =
        ((Nat.digits 10 n).reverse.map (fun d => 48 + d)) ++ acc := by
  induction fuel with
  | zero =>
    intro n acc hn
    interval_cases n
    simp [natDecAux]
  | succ fuel ih =>
    intro n acc hn
    by_cases h0 : n = 0
    · subst h0; simp [natDecAux]
    · have hdiv : n / 10 ≤ fuel := by
        have : n / 10 < n := Nat.div_lt_self (Nat.pos_of_ne_zero h0) (by decide)
        omega
      rw [natDecAux, if_neg h0, ih _ _ hdiv,
        Nat.digits_def' (b := 10) (by norm_num) (Nat.pos_of_ne_zero h0)]
      simp

theorem natDecBytes_eq (n : Nat) (hn : n ≠ 0) :
    natDecBytes n = (Nat.digits 10 n).reverse.map (fun d => 48 + d) := by
  rw [natDecBytes, if_neg hn, natDecAux_eq n n [] le_rfl, List.append_nil]

theorem natDecBytes_ne_nil (n : Nat) : natDecBytes n ≠ [] := by
  by_cases hn : n = 0
  · subst hn; simp [natDecBytes]
  · rw [natDecBytes_eq n hn]
    simp [Nat.digits_ne_nil_iff_ne_zero, hn]

theorem natDecBytes_length (n : Nat) (hn : n ≠ 0) :
    (natDecBytes n).length = (Nat.digits 10 n).length := by
  rw [natDecBytes_eq n hn]; simp

/-- Digit-count bound: `n < 10 ^ k` gives at most `k` decimal digit bytes. -/
theorem natDecBytes_length_le {n k : Nat} (hk : 0 < k) (h : n < 10 ^ k) :
    (natDecBytes n).length ≤ k := by
  by_cases hn : n = 0
  · subst hn; simpa [natDecBytes] using hk
  · rw [natDecBytes_length n hn, Nat.digits_len 10 n (by norm_num) hn]
    have : Nat.log 10 n < k := Nat.log_lt_of_lt_pow hn h
    omega

/-- Every byte of `natDecBytes n` is an ASCII digit. -/
theorem natDecBytes_mem {n b : Nat} (hb : b ∈ natDecBytes n) :
    48 ≤ b ∧ b ≤ 57 := by
  by_cases hn : n = 0
  · subst hn; simp [natDecBytes] at hb; omega
  · rw [natDecBytes_eq n hn] at hb
    simp only [List.mem_map, List.mem_reverse] at hb
    obtain ⟨d, hd, rfl⟩ := hb
    have := Nat.digits_lt_base (by norm_num) hd
    omega

/-- No leading zero: the first byte of `natDecBytes n` is not `'0'` unless
`n = 0`. -/
theorem natDecBytes_head_ne_zero {n : Nat} (hn : n ≠ 0) :
    (natDecBytes n).head? ≠ some 48 := by
  rw [natDecBytes_eq n hn]
  have hne : Nat.digits 10 n ≠ [] := Nat.digits_ne_nil_iff_ne_zero.mpr hn
  have hrev : (Nat.digits 10 n).reverse ≠ [] := by simpa using hne
  obtain ⟨d, l, hdl⟩ := List.exists_cons_of_ne_nil hrev
  have hdmem : d ∈ Nat.digits 10 n := by
    have : d ∈ (Nat.digits 10 n).reverse := by rw [hdl]; exact List.mem_cons_self _ _
    simpa using this
  have hlast : (Nat.digits 10 n).getLast hne ≠ 0 := Nat.getLast_digit_ne_zero 10 hn
  have hhead : (Nat.digits 10 n).reverse.head? = some ((Nat.digits 10 n).getLast hne) := by
    rw [List.head?_reverse, List.getLast?_eq_getLast _ hne]
  rw [hdl] at hhead
  simp only [List.head?_cons, Option.some.injEq] at hhead
  rw [hdl]
  simp only [List.map_cons, List.head?_cons, ne_eq, Option.some.injEq]
  omega

/-! ## Properties of `intDecBytes` -/

theorem intDecBytes_nonneg {i : Int} (h : 0 ≤ i) :
    intDecBytes i = natDecBytes i.natAbs := by
  rw [intDecBytes, if_neg (by omega)]

theorem intDecBytes_neg {i : Int} (h : i < 0) :
    intDecBytes i = 45 :: natDecBytes i.natAbs := by
  rw [intDecBytes, if_pos h]

theorem intDecBytes_ne_nil (i : Int) : intDecBytes i ≠ [] := by
  rw [intDecBytes]
  split
  · simp
  · exact natDecBytes_ne_nil _

/-- Every byte of `intDecBytes i` is a digit or the minus sign; in
particular no byte is the NUL terminator. -/
theorem intDecBytes_mem {i : Int} {b : Nat} (hb : b ∈ intDecBytes i) :
    b = 45 ∨ (48 ≤ b ∧ b ≤ 57) := by
  rw [intDecBytes] at hb
  split at hb
  · rcases List.mem_cons.mp hb with h | h
    · left; exact h
    · right; exact natDecBytes_mem h
  · right; exact natDecBytes_mem hb

/-- Length bound for `intDecBytes`, split by sign. -/
theorem intDecBytes_length_le {i : Int} {k : Nat} (hk : 0 < k)
    (hpos : 0 ≤ i → i.natAbs < 10 ^ k)
    (hneg : i < 0 → i.natAbs < 10 ^ (k - 1)) :
    (intDecBytes i).length ≤ k := by
  rw [intDecBytes]
  split
  · rename_i h
    have h1 : (natDecBytes i.natAbs).length ≤ k - 1 := by
      refine natDecBytes_length_le ?_ (hneg h)
      by_contra hc
      have hk1 : k = 1 := by omega
      have := hneg h
      rw [hk1] at this
      simp at this
      omega
    simp only [List.length_cons]
    omega
  · rename_i h
    exact natDecBytes_length_le hk (hpos (by omega))

/-- Bound combinator with numeral endpoints, to be instantiated per type. -/
theorem intDecBytes_length_le_num {i lo hi : Int} {k : Nat}
    (h1 : lo ≤ i) (h2 : i ≤ hi) (hk : 0 < k) (hhi0 : 0 ≤ hi)
    (hhi : hi.natAbs < 10 ^ k) (hlo : lo.natAbs < 10 ^ (k - 1)) :
    (intDecBytes i).length ≤ k := by
  apply intDecBytes_length_le hk
  · intro h0
    have : i.natAbs ≤ hi.natAbs := by omega
    exact lt_of_le_of_lt this hhi
  · intro h0
    have : i.natAbs ≤ lo.natAbs := by omega
    exact lt_of_le_of_lt this hlo

/-- Central capacity fact: for every supported type `t` and in-range value,
the formatted length never exceeds the per-width `max_buf_size` — so the
`unreachable_unchecked` hint in `DecInt::new` is indeed unreachable. -/
theorem intDecBytes_length_le_maxBufSize (t : IntTy) (i : Int)
    (h : t.inRange i) : (intDecBytes i).length ≤ maxBufSize t := by
  obtain ⟨h1, h2⟩ := h
  cases t <;>
    exact intDecBytes_length_le_num h1 h2 (by decide) (by decide) (by decide)
      (by decide)

/-- For widths of at most 64 bits the per-width bound is itself below the
21-byte capacity. -/
theorem maxBufSize_lt_BUF_CAP (t : IntTy) (h : t.bits ≤ 64) :
    maxBufSize t < BUF_CAP := by
  cases t <;> revert h <;> decide

/-! ## Characterization of `DecInt.new` -/

theorem DecInt.new_some_inv {t : IntTy} {i : Int} {d : DecInt}
    (h : DecInt.new t i = some d) :
    d.len = (intDecBytes i).length ∧ (intDecBytes i).length < BUF_CAP ∧
      d.buf = (intDecBytes i).map some ++
        some 0 :: List.replicate (BUF_CAP - (intDecBytes i).length - 1) none := by
  simp only [DecInt.new] at h
  split at h
  · exact absurd h (by simp)
  · split at h
    · rw [Option.some_inj] at h
      subst h
      rename_i hcap
      exact ⟨rfl, hcap, rfl⟩
    · exact absurd h (by simp)

/-- Construction succeeds whenever the formatted text fits under the
capacity (given that the `unreachable_unchecked` guard is passed). -/
theorem DecInt.new_eq_some (t : IntTy) (i : Int)
    (hub : (intDecBytes i).length ≤ maxBufSize t)
    (hcap : (intDecBytes i).length < BUF_CAP) :
    DecInt.new t i =
      some { buf := (intDecBytes i).map some ++
               some 0 :: List.replicate (BUF_CAP - (intDecBytes i).length - 1) none
             len := (intDecBytes i).length } := by
  simp only [DecInt.new]
  rw [if_neg (Nat.not_lt.mpr hub), if_pos hcap]

/-- Construction fails (the `assert!` panics) exactly when the formatted
text does not fit. -/
theorem DecInt.new_eq_none (t : IntTy) (i : Int)
    (hcap : ¬ (intDecBytes i).length < BUF_CAP) :
    DecInt.new t i = none := by
  simp only [DecInt.new, if_neg hcap]
  split <;> rfl

/-! ## The views of a constructed handle -/

theorem DecInt.as_bytes_with_nul_eq {t : IntTy} {i : Int} {d : DecInt}
    (h : DecInt.new t i = some d) :
    d.as_bytes_with_nul = intDecBytes i ++ [0] := by
  obtain ⟨hlen, _, hbuf⟩ := DecInt.new_some_inv h
  rw [DecInt.as_bytes_with_nul, hbuf, hlen]
  have hlen' : (intDecBytes i).length + 1 = ((intDecBytes i).map some).length + 1 := by
    simp
  rw [hlen', List.take_append]
  simp [Function.comp_def]

theorem DecInt.as_bytes_eq {t : IntTy} {i : Int} {d : DecInt}
    (h : DecInt.new t i = some d) :
    d.as_bytes = intDecBytes i := by
  rw [DecInt.as_bytes, DecInt.as_bytes_with_nul_eq h]
  simp

theorem DecInt.as_str_eq {t : IntTy} {i : Int} {d : DecInt}
    (h : DecInt.new t i = some d) :
    d.as_str = intDecBytes i :=
  DecInt.as_bytes_eq h

/-! ## Round-trip: parsing the formatted text recovers the value -/

theorem parseDigitsAcc_map (ds : List Nat) :
    ∀ acc, (∀ d ∈ ds, d < 10) →
      parseDigitsAcc (ds.map (fun d => 48 + d)) acc =
        some (ds.foldl (fun a d => a * 10 + d) acc) := by
  induction ds with
  | nil => intro acc _; rfl
  | cons d ds ih =>
    intro acc h
    have hd : d < 10 := h d (List.mem_cons_self _ _)
    simp only [List.map_cons, parseDigitsAcc, List.foldl_cons]
    rw [if_pos (by omega)]
    have hsub : 48 + d - 48 = d := by omega
    rw [hsub]
    exact ih _ (fun x hx => h x (List.mem_cons_of_mem _ hx))

theorem foldl_reverse_ofDigits (L : List Nat) :
    L.reverse.foldl (fun a d => a * 10 + d) 0 = Nat.ofDigits 10 L := by
  induction L with
  | nil => simp [Nat.ofDigits]
  | cons d L ih =>
    rw [List.reverse_cons, List.foldl_append, ih]
    simp only [List.foldl_cons, List.foldl_nil, Nat.ofDigits_cons, Nat.cast_id]
    omega

theorem parseNonempty_eq {ds : List Nat} (h : ds ≠ []) :
    parseNonempty ds = parseDigitsAcc ds 0 := by
  cases ds with
  | nil => exact absurd rfl h
  | cons c cs => rfl

theorem parseNonempty_natDecBytes (n : Nat) :
    parseNonempty (natDecBytes n) = some n := by
  by_cases hn : n = 0
  · subst hn; decide
  · rw [parseNonempty_eq (natDecBytes_ne_nil n), natDecBytes_eq n hn,
      parseDigitsAcc_map _ 0
        (fun d hd => Nat.digits_lt_base (by norm_num) (List.mem_reverse.mp hd)),
      foldl_reverse_ofDigits, Nat.ofDigits_digits]

/-- Parsing the canonical decimal text of an in-range value as the same
type recovers the value. -/
theorem parseDec_intDecBytes (t : IntTy) (i : Int) (h : t.inRange i) :
    parseDec t (intDecBytes i) = some i := by
  by_cases hneg : i < 0
  · have hsigned : t.signed = true := by
      by_contra hs
      have hmin : t.minVal = 0 := by
        rw [IntTy.minVal, if_neg (by simpa using hs)]
      have h1 := h.1
      rw [hmin] at h1
      omega
    rw [intDecBytes_neg hneg]
    have hstep : parseDec t (45 :: natDecBytes i.natAbs) =
        (if t.signed then
          (parseNonempty (natDecBytes i.natAbs)).bind fun n =>
            if t.inRange (-(n : Int)) then some (-(n : Int)) else none
        else none) := by
      simp only [parseDec, eq_false (by decide : ¬((45 : Nat) = 43)), if_false]
      rw [if_pos trivial]
    rw [hstep, if_pos hsigned, parseNonempty_natDecBytes, Option.some_bind]
    have habs : ((i.natAbs : Int)) = -i := by omega
    rw [habs, neg_neg, if_pos h]
  · push_neg at hneg
    rw [intDecBytes_nonneg hneg]
    obtain ⟨c, l, hcl⟩ := List.exists_cons_of_ne_nil (natDecBytes_ne_nil i.natAbs)
    have hc : 48 ≤ c ∧ c ≤ 57 := natDecBytes_mem (hcl ▸ List.mem_cons_self c l)
    rw [hcl]
    simp only [parseDec]
    rw [if_neg (by omega), if_neg (by omega), ← hcl, parseNonempty_natDecBytes]
    have habs : ((i.natAbs : Int)) = i := by omega
    simp [habs, h]

theorem natDecBytes_head_digit (n : Nat) :
    ∃ c, (natDecBytes n).head? = some c ∧ 48 ≤ c ∧ c ≤ 57 := by
  obtain ⟨c, l, hcl⟩ := List.exists_cons_of_ne_nil (natDecBytes_ne_nil n)
  have hmem : c ∈ natDecBytes n := hcl ▸ List.mem_cons_self c l
  obtain ⟨h1, h2⟩ := natDecBytes_mem hmem
  exact ⟨c, by rw [hcl]; rfl, h1, h2⟩

/-! ## The claims -/

/-- **C1.** For every supported integer value `i`, the text view of the
handle constructed from `i` (`DecInt::new(i).as_str()`) is exactly the
canonical decimal ASCII representation of `i`: it equals the itoa output
`intDecBytes i`; it is `"0"` for zero; for positive `i` it consists of
digits only; for negative `i` it is a single leading `'-'` followed by
digits only; it has no leading zero (except for the value 0 itself) and no
leading `'+'`. -/
theorem new_as_str_canonical (t : IntTy) (i : Int) (d : DecInt)
    (h : DecInt.new t i = some d) :
    d.as_str = intDecBytes i ∧
    (i = 0 → d.as_str = [48]) ∧
    (0 < i → ∀ b ∈ d.as_str, 48 ≤ b ∧ b ≤ 57) ∧
    (i < 0 → d.as_str.head? = some 45 ∧ ∀ b ∈ d.as_str.tail, 48 ≤ b ∧ b ≤ 57) ∧
    (i ≠ 0 → (if i < 0 then d.as_str.tail else d.as_str).head? ≠ some 48) ∧
    d.as_str.head? ≠ some 43 := by
  rw [DecInt.as_str_eq h]
  refine ⟨rfl, ?_, ?_, ?_, ?_, ?_⟩
  · rintro rfl; decide
  · intro hpos b hb
    rw [intDecBytes_nonneg (by omega)] at hb
    exact natDecBytes_mem hb
  · intro hneg
    rw [intDecBytes_neg hneg]
    exact ⟨rfl, fun b hb => natDecBytes_mem hb⟩
  · intro hne
    have habs : i.natAbs ≠ 0 := by omega
    by_cases hneg : i < 0
    · rw [if_pos hneg, intDecBytes_neg hneg]
      exact natDecBytes_head_ne_zero habs
    · rw [if_neg hneg, intDecBytes_nonneg (by omega)]
      exact natDecBytes_head_ne_zero habs
  · by_cases hneg : i < 0
    · rw [intDecBytes_neg hneg]
      simp
    · rw [intDecBytes_nonneg (by omega)]
      obtain ⟨c, hc, h1, _⟩ := natDecBytes_head_digit i.natAbs
      rw [hc]
      intro hcontra
      rw [Option.some_inj] at hcontra
      omega

/-- **C1 witness.** Concrete instance at `i32`, `i = -42`. -/
theorem new_as_str_canonical_witness :
    DecInt.new .i32 (-42) = some (mkD .i32 (-42)) ∧
      (mkD .i32 (-42)).as_str = intDecBytes (-42) :=
  ⟨by decide, (new_as_str_canonical .i32 (-42) (mkD .i32 (-42)) (by decide)).1⟩

/-- **C2 counterexample.** `10^20` is an in-range `u128` value, yet
`DecInt::new::<u128>` on it hits the capacity assertion (its 21-digit text
is not strictly shorter than the 21-byte buffer) and panics — modelled as
`none`.  So construction is not failure-free for every supported width. -/
theorem new_not_total_all_widths :
    IntTy.inRange .u128 100000000000000000000 ∧
      DecInt.new .u128 100000000000000000000 = none := by
  constructor
  · decide
  · decide

/-- **C2 (amended).** For every integer type of width at most 64 bits —
8, 16, 32, 64 and pointer width, signed or unsigned — and every in-range
value, construction succeeds: no user-observable failure occurs and the
capacity assertion never fires. -/
theorem new_total_le64 (t : IntTy) (i : Int) (hw : t.bits ≤ 64)
    (h : t.inRange i) : ∃ d, DecInt.new t i = some d := by
  have h1 := intDecBytes_length_le_maxBufSize t i h
  have h2 := maxBufSize_lt_BUF_CAP t hw
  exact ⟨_, DecInt.new_eq_some t i h1 (by omega)⟩

/-- **C2 witness.** Concrete instance at `i8`, `i = -128`. -/
theorem new_total_le64_witness :
    IntTy.bits .i8 ≤ 64 ∧ IntTy.inRange .i8 (-128) ∧
      ∃ d, DecInt.new .i8 (-128) = some d :=
  ⟨by decide, by decide, new_total_le64 .i8 (-128) (by decide) (by decide)⟩

/-- **C3 counterexample.** `i128` is one of the widths the spec lists as
supported, but its minimum value formats to 40 bytes — not strictly less
than the 21-byte capacity — and construction of it panics. -/
theorem minmax_not_fit_i128 :
    ¬ (intDecBytes (IntTy.minVal .i128)).length < BUF_CAP ∧
      DecInt.new .i128 (IntTy.minVal .i128) = none := by
  constructor
  · decide
  · decide

/-- **C3 (amended).** For every supported integer width of at most 64 bits,
the minimum and the maximum representable value format to a decimal text
strictly shorter than the 21-byte capacity (leaving room for the
terminator); the 64-bit minimum signed value formats to exactly 20
bytes. -/
theorem minmax_fit_le64 :
    (∀ t : IntTy, t.bits ≤ 64 →
      (intDecBytes t.minVal).length < BUF_CAP ∧
        (intDecBytes t.maxVal).length < BUF_CAP) ∧
    (intDecBytes (IntTy.minVal .i64)).length = 20 := by
  constructor
  · intro t h
    cases t <;> revert h <;> decide
  · decide

/-- **C3 witness.** Concrete instance at `i64`. -/
theorem minmax_fit_le64_witness :
    IntTy.bits .i64 ≤ 64 ∧ (intDecBytes (IntTy.minVal .i64)).length < BUF_CAP :=
  ⟨by decide, (minmax_fit_le64.1 .i64 (by decide)).1⟩

/-- **C4.** For every supported integer `i`, the NUL-terminated byte view
of the constructed handle equals the text view's bytes followed by exactly
one zero terminator byte, and no byte of the view other than the final one
equals 0. -/
theorem as_bytes_with_nul_spec (t : IntTy) (i : Int) (d : DecInt)
    (h : DecInt.new t i = some d) :
    d.as_bytes_with_nul = d.as_str ++ [0] ∧ ∀ b ∈ d.as_str, b ≠ 0 := by
  refine ⟨by rw [DecInt.as_bytes_with_nul_eq h, DecInt.as_str_eq h], ?_⟩
  rw [DecInt.as_str_eq h]
  intro b hb
  rcases intDecBytes_mem hb with h45 | hdig
  · omega
  · omega

/-- **C4 witness.** Concrete instance at `u8`, `i = 7`. -/
theorem as_bytes_with_nul_spec_witness :
    DecInt.new .u8 7 = some (mkD .u8 7) ∧
      (mkD .u8 7).as_bytes_with_nul = (mkD .u8 7).as_str ++ [0] :=
  ⟨by decide, (as_bytes_with_nul_spec .u8 7 (mkD .u8 7) (by decide)).1⟩

/-- **C5.** The byte view without terminator has the same length as the
text view and denotes the identical byte sequence (both are the formatted
decimal text), and it equals the NUL-terminated view with the trailing
terminator byte dropped. -/
theorem as_bytes_spec (t : IntTy) (i : Int) (d : DecInt)
    (h : DecInt.new t i = some d) :
    d.as_bytes = d.as_str ∧
    d.as_bytes.length = d.as_str.length ∧
    d.as_bytes = d.as_bytes_with_nul.dropLast ∧
    d.as_bytes = intDecBytes i ∧
    d.as_bytes_with_nul.length = d.as_bytes.length + 1 := by
  refine ⟨rfl, rfl, rfl, DecInt.as_bytes_eq h, ?_⟩
  rw [DecInt.as_bytes_with_nul_eq h, DecInt.as_bytes_eq h]
  simp

/-- **C5 witness.** Concrete instance at `u16`, `i = 123`. -/
theorem as_bytes_spec_witness :
    DecInt.new .u16 123 = some (mkD .u16 123) ∧
      (mkD .u16 123).as_bytes = intDecBytes 123 :=
  ⟨by decide, (as_bytes_spec .u16 123 (mkD .u16 123) (by decide)).2.2.2.1⟩

/-- **C6.** Every successfully constructed handle satisfies the data-model
invariant: `len ≤ capacity - 1` (i.e. `len ≤ 20`), the buffer has exactly
`BUF_CAP` slots, bytes `[0, len]` are all initialized, bytes `[0, len)`
form the decimal text of the source integer, and the byte at index `len`
is 0.  (Accessors are pure read-only functions of the handle in this
model, so the invariant is trivially preserved by every access.) -/
theorem new_invariant (t : IntTy) (i : Int) (d : DecInt)
    (h : DecInt.new t i = some d) :
    d.len ≤ BUF_CAP - 1 ∧
    d.buf.length = BUF_CAP ∧
    (∀ j, j ≤ d.len → ∃ b, d.buf[j]? = some (some b)) ∧
    d.buf.take d.len = (intDecBytes i).map some ∧
    d.buf[d.len]? = some (some 0) := by
  obtain ⟨hlen, hcap, hbuf⟩ := DecInt.new_some_inv h
  have hmaplen : ((intDecBytes i).map some).length = (intDecBytes i).length := by
    simp
  have hterm : d.buf[d.len]? = some (some 0) := by
    rw [hbuf, hlen, List.getElem?_append_right (by omega)]
    simp [hmaplen]
  refine ⟨by omega, ?_, ?_, ?_, hterm⟩
  · rw [hbuf]
    simp
    omega
  · intro j hj
    by_cases hjl : j < (intDecBytes i).length
    · refine ⟨(intDecBytes i).get ⟨j, hjl⟩, ?_⟩
      rw [hbuf, List.getElem?_append_left (by simp; omega), List.getElem?_map,
        List.getElem?_eq_getElem hjl]
      simp
    · have hje : j = d.len := by omega
      subst hje
      exact ⟨0, hterm⟩
  · rw [hbuf, hlen, List.take_left' hmaplen]

/-- **C6 witness.** Concrete instance at `i16`, `i = -5`. -/
theorem new_invariant_witness :
    DecInt.new .i16 (-5) = some (mkD .i16 (-5)) ∧
      (mkD .i16 (-5)).buf[(mkD .i16 (-5)).len]? = some (some 0) :=
  ⟨by decide, (new_invariant .i16 (-5) (mkD .i16 (-5)) (by decide)).2.2.2.2⟩

/-- **C7.** Round-trip: for every supported integer type and every value
`i` of that type in the representative set
`{0, 1, -1, minimum, maximum}`, parsing the text view of the handle
constructed from `i` back as the same integer type yields `i`. -/
theorem round_trip (t : IntTy) (i : Int) (d : DecInt)
    (_hrep : i = 0 ∨ i = 1 ∨ i = -1 ∨ i = t.minVal ∨ i = t.maxVal)
    (hr : t.inRange i) (h : DecInt.new t i = some d) :
    parseDec t d.as_str = some i := by
  rw [DecInt.as_str_eq h]
  exact parseDec_intDecBytes t i hr

/-- **C7 witness.** Concrete instance at `i64` with the minimum value. -/
theorem round_trip_witness :
    DecInt.new .i64 (-9223372036854775808) =
        some (mkD .i64 (-9223372036854775808)) ∧
      parseDec .i64 (mkD .i64 (-9223372036854775808)).as_str =
        some (-9223372036854775808) :=
  ⟨by decide,
    round_trip .i64 (-9223372036854775808) (mkD .i64 (-9223372036854775808))
      (by decide) (by decide) (by decide)⟩

/-- **C8.** Constructing from a file-descriptor-like handle
(`DecInt::from_fd`) yields a handle equal — in every view — to the handle
constructed directly from the descriptor's underlying raw integer
(`RawFd`, an `i32`) via `DecInt::new`. -/
theorem from_fd_eq_new (fd : Fd) :
    DecInt.from_fd fd = DecInt.new .i32 fd.raw ∧
    (DecInt.from_fd fd).map DecInt.as_str =
      (DecInt.new .i32 fd.raw).map DecInt.as_str ∧
    (DecInt.from_fd fd).map DecInt.as_bytes =
      (DecInt.new .i32 fd.raw).map DecInt.as_bytes ∧
    (DecInt.from_fd fd).map DecInt.as_bytes_with_nul =
      (DecInt.new .i32 fd.raw).map DecInt.as_bytes_with_nul ∧
    (DecInt.from_fd fd).map DecInt.as_path =
      (DecInt.new .i32 fd.raw).map DecInt.as_path :=
  ⟨rfl, rfl, rfl, rfl, rfl⟩

/-- **C9.** Determinism: two handles independently constructed from the
same integer are byte-for-byte identical across all views (text, byte,
NUL-terminated byte, and path-like view) — indeed they are equal. -/
theorem new_deterministic (t : IntTy) (i : Int) (d₁ d₂ : DecInt)
    (h₁ : DecInt.new t i = some d₁) (h₂ : DecInt.new t i = some d₂) :
    d₁.as_str = d₂.as_str ∧ d₁.as_bytes = d₂.as_bytes ∧
    d₁.as_bytes_with_nul = d₂.as_bytes_with_nul ∧
    d₁.as_path = d₂.as_path ∧ d₁ = d₂ := by
  rw [h₁] at h₂
  rw [Option.some_inj] at h₂
  subst h₂
  exact ⟨rfl, rfl, rfl, rfl, rfl⟩

/-- **C9 witness.** Concrete instance at `u32`, `i = 0`. -/
theorem new_deterministic_witness :
    DecInt.new .u32 0 = some (mkD .u32 0) ∧ mkD .u32 0 = mkD .u32 0 :=
  ⟨by decide,
    (new_deterministic .u32 0 (mkD .u32 0) (mkD .u32 0)
      (by decide) (by decide)).2.2.2.2⟩

/-- **C10.** 128-bit integers are accepted by `DecInt::new` at the type
level rather than rejected: for any in-range `i128`/`u128` value whose
decimal representation has at most 20 bytes, construction succeeds and the
views show that representation; for any such value whose decimal
representation exceeds 20 bytes, construction fails via the runtime
capacity assertion (the panic, modelled as `none`) — and that assertion is
the only way construction can fail (the `unreachable_unchecked` guard is
never hit for in-range values). -/
theorem i128_boundary (t : IntTy) (i : Int)
    (_ht : t = .i128 ∨ t = .u128) (h : t.inRange i) :
    ((intDecBytes i).length ≤ 20 →
      ∃ d, DecInt.new t i = some d ∧ d.as_str = intDecBytes i ∧
        d.as_bytes_with_nul = intDecBytes i ++ [0]) ∧
    (20 < (intDecBytes i).length → DecInt.new t i = none) := by
  have hub : (intDecBytes i).length ≤ maxBufSize t :=
    intDecBytes_length_le_maxBufSize t i h
  constructor
  · intro hlen
    have hnew := DecInt.new_eq_some t i hub
      (by show (intDecBytes i).length < 21; omega)
    exact ⟨_, hnew, DecInt.as_str_eq hnew, DecInt.as_bytes_with_nul_eq hnew⟩
  · intro hlen
    exact DecInt.new_eq_none t i (by show ¬ (intDecBytes i).length < 21; omega)

/-- **C10 witness.** The `i128` minimum value is in range, its text is 40
bytes long, and construction of it fails. -/
theorem i128_boundary_witness :
    IntTy.inRange .i128 (-170141183460469231731687303715884105728) ∧
      DecInt.new .i128 (-170141183460469231731687303715884105728) = none :=
  ⟨by decide,
    (i128_boundary .i128 (-170141183460469231731687303715884105728)
      (Or.inl rfl) (by decide)).2 (by decide)⟩

end Rustix

/- Sanity checks on concrete values (kernel evaluation). -/

example : Rustix.natDecBytes 9876 = [57, 56, 55, 54] := by decide

example : Rustix.intDecBytes (-42) = [45, 52, 50] := by decide

example : (Rustix.intDecBytes (Rustix.IntTy.minVal .i64)).length = 20 := by decide

example : Rustix.DecInt.new .u128 (10 ^ 20) = none := by decide

example :
    (Rustix.DecInt.new .i32 9876).map Rustix.DecInt.as_str =
      some [57, 56, 55, 54] := by decide
